import Mathlib

/-!
Verification of the LinkedIn employee extractor's record reconciler,
page enumerator, company-attribution heuristic and persistence layer
(src/utils.py and src/linkedin_scraper.py), as a shallow embedding.

Datasets are association lists of (url, record) pairs modelling Python
dicts: unique keys, insertion order preserved, in-place value update.
The CSV file is modelled as a list of rows, each row a list of string
fields (the csv module's field quoting is taken as faithful transport).
Python `str.strip()` is modelled on ASCII-style whitespace.
-/

namespace LinkedinExtractor

/-- One employee record, the three-column schema of src/utils.py. -/
structure EmpRec where
  profile_URL : String
  description : String
  company : String
deriving DecidableEq

abbrev Dataset := List (String × EmpRec)

/-- Python s.strip(): drop leading and trailing whitespace. -/
def pyStrip (s : String) : String :=
  String.mk (((s.data.dropWhile Char.isWhitespace).reverse.dropWhile Char.isWhitespace).reverse)

/-- The key list of a dataset (dict key view, in insertion order). -/
def keys (d : Dataset) : List String := d.map (fun p => p.1)

/-- Dict membership/lookup: first (unique) pair with the given key. -/
def lookupKey (d : Dataset) (u : String) : Option EmpRec :=
  match d with
  | [] => none
  | (k, r) :: rest => if k = u then some r else lookupKey rest u

/-- Dict value update in place: replace the value stored at key u, keeping its position. -/
def setKey (d : Dataset) (u : String) (r : EmpRec) : Dataset :=
  match d with
  | [] => []
  | (k, r0) :: rest => if k = u then (k, r) :: rest else (k, r0) :: setKey rest u r

/-- Field-by-field update of an existing record (src/utils.py lines 139-144):
description replaced when the incoming one is non-empty and the existing one is
empty or strictly shorter; company replaced when incoming non-empty and existing empty. -/
def updateRecord (existing e : EmpRec) : EmpRec :=
  let d := if e.description ≠ "" ∧ (existing.description = "" ∨ existing.description.length < e.description.length)
           then e.description else existing.description
  let c := if e.company ≠ "" ∧ existing.company = "" then e.company else existing.company
  { existing with description := d, company := c }

/-- Processing of one batch record by save_employee_data's loop
(src/utils.py lines 131-154): skip blank urls; existing key is updated in
update mode and skipped in normal mode; an unseen url is inserted as a new
record in either mode. -/
def mergeStep (update_mode : Bool) (data : Dataset) (e : EmpRec) : Dataset :=
  let url := pyStrip e.profile_URL
  if url = "" then data
  else
    match lookupKey data url with
    | some existing => if update_mode then setKey data url (updateRecord existing e) else data
    | none => data ++ [(url, ⟨url, e.description, e.company⟩)]

/-- The whole merge loop of save_employee_data over a batch. -/
def mergeData (update_mode : Bool) (data : Dataset) (employees : List EmpRec) : Dataset :=
  employees.foldl (mergeStep update_mode) data

/-! Persistence layer: the CSV file as a list of rows of fields. -/

/-- Insert one pair into a key-ordered list, before the first strictly
larger key (Python's stable sorted over unique keys). -/
def insertSorted (p : String × EmpRec) : Dataset → Dataset
  | [] => [p]
  | q :: qs => if p.1 < q.1 then p :: q :: qs else q :: insertSorted p qs

/-- sorted(all_data.items()): sort the dataset by key. -/
def sortByKey (d : Dataset) : Dataset := d.foldr insertSorted []

/-- The fixed three-column header of src/utils.py line 159. -/
def csvHeader : List String := ["Profile_URL", "Description", "Company"]

/-- The rows produced by the DictWriter in save_employee_data lines 158-164:
header, then one row per record in ascending key order, fields in schema order. -/
def writeRows (d : Dataset) : List (List String) :=
  csvHeader :: (sortByKey d).map (fun p => [p.2.profile_URL, p.2.description, p.2.company])

/-- DictReader field access row.get(name, ""): the value zipped under the
given header name, defaulting to the empty string. -/
def getField (hdr row : List String) (name : String) : String :=
  match (hdr.zip row).find? (fun p => p.1 = name) with
  | some p => p.2
  | none => ""

/-- Dict assignment existing_data[url] = r: overwrite in place when the key
is present, append otherwise. -/
def setOrAppend (d : Dataset) (u : String) (r : EmpRec) : Dataset :=
  match lookupKey d u with
  | some _ => setKey d u r
  | none => d ++ [(u, r)]

/-- One row of load_existing_data's loop (src/utils.py lines 70-77):
skip rows with blank url, strip all three fields, key by the stripped url. -/
def loadRow (hdr : List String) (acc : Dataset) (row : List String) : Dataset :=
  let url := pyStrip (getField hdr row "Profile_URL")
  if url = "" then acc
  else setOrAppend acc url ⟨url, pyStrip (getField hdr row "Description"), pyStrip (getField hdr row "Company")⟩

/-- load_existing_data (src/utils.py lines 56-82) over the modelled file:
a missing file or a file without rows gives the empty dataset; otherwise the
first row is the header and the rest are read through the DictReader loop. -/
def load_existing_data (file : Option (List (List String))) : Dataset :=
  match file with
  | none => []
  | some [] => []
  | some (hdr :: rows) => rows.foldl (loadRow hdr) []

/-- Result of one save_employee_data call: the file after the call, the
merged all_data dict when the call got as far as computing it (none on the
empty-batch early return), and whether the write failed and was logged. -/
structure SaveResult where
  newFile : Option (List (List String))
  mergedData : Option Dataset
  writeError : Bool
deriving DecidableEq

/-- The CSV write of src/utils.py lines 158-164; an I/O failure is an exception. -/
def tryWrite (writeOk : Bool) (d : Dataset) : Except String (List (List String)) :=
  if writeOk then .ok (writeRows d) else .error "io error"

/-- save_employee_data (src/utils.py lines 102-172). Returns .ok in every
case: the try/except around the write catches the I/O failure, logs it and
falls through, leaving the file as it was. The empty-batch guard of lines
113-114 returns before anything is loaded, merged or written. -/
def pickExisting (all_existing_data : Option Dataset) (file : Option (List (List String))) : Dataset :=
  match all_existing_data with
  | some d => d
  | none => load_existing_data file

def save_employee_data (writeOk : Bool) (employees : List EmpRec) (update_mode : Bool)
    (all_existing_data : Option Dataset) (file : Option (List (List String))) :
    Except String SaveResult :=
  if employees = [] then .ok ⟨file, none, false⟩
  else
    let all_data := mergeData update_mode (pickExisting all_existing_data file) employees
    match tryWrite writeOk all_data with
    | .ok rows => .ok ⟨some rows, some all_data, false⟩
    | .error _ => .ok ⟨file, some all_data, true⟩

/-! Page enumerator (src/linkedin_scraper.py lines 327-387 and 793-836). -/

/-- One clickable pagination control: its href attribute (empty when the
element has none, matching arguments[0].href || "") and its stripped text. -/
structure PaginationControl where
  href : String
  text : String
deriving DecidableEq

/-- Contiguous-sublist check on character lists. -/
def containsSub (needle : List Char) : List Char → Bool
  | [] => needle.isEmpty
  | c :: cs => needle.isPrefixOf (c :: cs) || containsSub needle cs

/-- Python "needle in hay" on strings. -/
def pyIn (needle hay : String) : Bool := containsSub needle.data hay.data

/-- The characters before the first occurrence of sep (s.split(sep)[0]). -/
def takeUntilSub (sep : List Char) : List Char → List Char
  | [] => []
  | c :: cs => if sep.isPrefixOf (c :: cs) then [] else c :: takeUntilSub sep cs

/-- s.split(sep)[0] as a string. -/
def splitBefore (sep s : String) : String := String.mk (takeUntilSub sep.data s.data)

/-- base_url computation (lines 330-335): strip an existing page parameter. -/
def baseOf (currentUrl : String) : String :=
  if pyIn "&page=" currentUrl then splitBefore "&page=" currentUrl
  else if pyIn "?page=" currentUrl then splitBefore "?page=" currentUrl
  else currentUrl

/-- Python text.isdigit() restricted to ASCII digits. -/
def isDigits (s : String) : Bool := !s.data.isEmpty && s.data.all Char.isDigit

/-- int(text) on a digit string. -/
def digitsToNat (l : List Char) : Nat := l.foldl (fun n c => 10 * n + (c.toNat - 48)) 0

/-- The address contributed by one control (lines 355-371): a non-empty href
containing "/search/results/people/" is taken as-is; otherwise a purely
numeric stripped text synthesizes base_url with a page parameter appended
with "&" when base_url already has a query and "?" otherwise; anything else
contributes nothing. -/
def controlUrl (base : String) (c : PaginationControl) : Option String :=
  let text := pyStrip c.text
  if c.href ≠ "" ∧ pyIn "/search/results/people/" c.href then some c.href
  else if text ≠ "" ∧ isDigits text then
    some (if pyIn "?" base then base ++ "&page=" ++ toString (digitsToNat text.data)
          else base ++ "?page=" ++ toString (digitsToNat text.data))
  else none

/-- The page_urls accumulated over the li elements, in document order; a li
without a clickable (modelled as none) contributes nothing. -/
def collectUrls (base : String) (controls : List (Option PaginationControl)) : List String :=
  controls.filterMap (fun oc => oc.bind (controlUrl base))

/-- re.search("page=(\\d+)", url): the leftmost occurrence of "page="
followed by at least one digit, taking the maximal digit run. -/
def findPageNum : List Char → Option Nat
  | [] => none
  | c :: cs =>
    if (['p', 'a', 'g', 'e', '='].isPrefixOf (c :: cs)) ∧ ((c :: cs).drop 5).takeWhile Char.isDigit ≠ [] then
      some (digitsToNat (((c :: cs).drop 5).takeWhile Char.isDigit))
    else findPageNum cs

/-- get_page_num (lines 377-379 and 826-828): extracted page number, 999 when none. -/
def get_page_num (url : String) : Nat := (findPageNum url.data).getD 999

/-- Deduplication keeping first occurrences (the set() of line 381; CPython's
set iteration order is modelled canonically as first-occurrence order). -/
def dedupFirstAux (seen : List String) : List String → List String
  | [] => []
  | x :: xs => if x ∈ seen then dedupFirstAux seen xs else x :: dedupFirstAux (x :: seen) xs

/-- set(page_urls) under the first-occurrence model. -/
def dedupFirst (l : List String) : List String := dedupFirstAux [] l

/-- Stable insertion of one address into a key-sorted list: after every
address with a smaller-or-equal page number. -/
def insertByKey (x : String) : List String → List String
  | [] => [x]
  | y :: ys => if get_page_num x < get_page_num y then x :: y :: ys else y :: insertByKey x ys

/-- sorted(_, key=get_page_num): Python's stable sort, as left-to-right
stable insertion sort. -/
def sortByPageNum (l : List String) : List String :=
  l.foldl (fun acc x => insertByKey x acc) []

/-- The page enumerator: when the pagination element is absent the single
current address (lines 385-387); when present, the collected addresses
deduplicated and sorted ascending by extracted page number (lines 376-382). -/
def enumerate_pages (currentUrl : String) (pagination : Option (List (Option PaginationControl))) : List String :=
  match pagination with
  | none => [currentUrl]
  | some controls => sortByPageNum (dedupFirst (collectUrls (baseOf currentUrl) controls))

/-! Company attribution (src/utils.py lines 302-329). -/

/-- description.lower() as a character list (ASCII lowering). -/
def lowerChars (s : String) : List Char := s.data.map Char.toLower

/-- company_clean (line 325): remove every "." (replaced by the empty
string), replace "-" and "_" by spaces. -/
def cleanCompany (l : List Char) : List Char :=
  (l.filter (fun c => c ≠ '.')).map (fun c => if c = '-' then ' ' else if c = '_' then ' ' else c)

/-- The scan of the company list (lines 319-327): first company whose
lowered name, or its cleaned form, occurs in the lowered description. -/
def assignLoop (dl : List Char) : List String → String
  | [] => ""
  | comp :: rest =>
    let cl := lowerChars comp
    if containsSub cl dl then comp
    else if containsSub (cleanCompany cl) dl then comp
    else assignLoop dl rest

/-- assign_company_from_description (src/utils.py lines 302-329). -/
def assign_company_from_description (description : String) (companies : List String) : String :=
  if description = "" then "" else assignLoop (lowerChars description) companies

/-! Specification-side definitions, used only to state claims. -/

/-- The record that fresh-mode merge inserts for a key absent from the
dataset: the first batch record carrying that (stripped, non-blank) url,
inserted as-is. -/
def firstNewRec : List EmpRec → String → Option EmpRec
  | [], _ => none
  | e :: es, u =>
    if pyStrip e.profile_URL = u ∧ u ≠ "" then some ⟨u, e.description, e.company⟩ else firstNewRec es u

/-- How a stored description may evolve under update-mode merging: either
unchanged, or replaced by a non-empty strictly longer value. -/
def descGrows (x y : String) : Prop := y = x ∨ (y ≠ "" ∧ x.length < y.length)

/-- How a stored company may evolve under update-mode merging: either
unchanged, or a non-empty value written over an empty one. -/
def compGrows (x y : String) : Prop := y = x ∨ (y ≠ "" ∧ x = "")

/-- A stored description dominates an incoming one: the incoming value is
empty, or the stored one is non-empty and at least as long. -/
def descDom (x e : String) : Prop := e = "" ∨ (x ≠ "" ∧ e.length ≤ x.length)

/-- A stored company dominates an incoming one: the incoming value is empty
or the stored one is non-empty. -/
def compDom (x e : String) : Prop := e = "" ∨ x ≠ ""

/-- Modelled from the claim's words: the company name with the punctuation
characters ".", "-", "_" normalized to spaces. -/
def claimNormalize (l : List Char) : List Char :=
  l.map (fun c => if c = '.' ∨ c = '-' ∨ c = '_' then ' ' else c)

/-- Modelled from the claim's words: the company matches when its
case-insensitive name, or its punctuation-to-spaces form, is a substring of
the description. -/
def claimMatches (description comp : String) : Bool :=
  containsSub (lowerChars comp) (lowerChars description) ||
    containsSub (claimNormalize (lowerChars comp)) (lowerChars description)

/-- Modelled from the claim's words: the attribution function as the claim
describes it, first matching company in list order, empty when none. -/
def claimAssign (description : String) (companies : List String) : String :=
  if description = "" then "" else ((companies.find? (claimMatches description)).getD "")

/-- The matcher actually implemented by the code: lowered name, or its
cleaned form with "." removed and "-", "_" turned into spaces. -/
def specMatches (description comp : String) : Bool :=
  containsSub (lowerChars comp) (lowerChars description) ||
    containsSub (cleanCompany (lowerChars comp)) (lowerChars description)

/-- First-match formulation of the attribution heuristic, for comparison
with the loop implementation. -/
def specAssign (description : String) (companies : List String) : String :=
  if description = "" then "" else ((companies.find? (specMatches description)).getD "")

/-- A dataset entry that survives the CSV strip-on-load unchanged: non-blank
key, stripped key, record url equal to the key, stripped field values. -/
def WellFormedEntry (p : String × EmpRec) : Prop :=
  p.1 ≠ "" ∧ pyStrip p.1 = p.1 ∧ p.2.profile_URL = p.1 ∧
    pyStrip p.2.description = p.2.description ∧ pyStrip p.2.company = p.2.company

/-! Basic association-list lemmas. -/

theorem keys_cons (k : String) (r : EmpRec) (rest : Dataset) :
    keys ((k, r) :: rest) = k :: keys rest := rfl

theorem lookupKey_cons (q : String × EmpRec) (qs : Dataset) (v : String) :
    lookupKey (q :: qs) v = if q.1 = v then some q.2 else lookupKey qs v := by
  obtain ⟨k, r⟩ := q
  rfl

theorem lookupKey_eq_none (d : Dataset) (u : String) : lookupKey d u = none ↔ u ∉ keys d := by
  induction d with
  | nil => simp [lookupKey, keys]
  | cons p rest ih =>
    obtain ⟨k, r⟩ := p
    rw [keys_cons]
    by_cases h : k = u
    · subst h
      simp [lookupKey]
    · rw [List.mem_cons]
      simp only [lookupKey, if_neg h]
      rw [ih]
      constructor
      · intro hn hm
        rcases hm with hm | hm
        · exact h hm.symm
        · exact hn hm
      · intro hn hm
        exact hn (Or.inr hm)

theorem mem_keys_of_lookupKey {d : Dataset} {u : String} {r : EmpRec}
    (h : lookupKey d u = some r) : u ∈ keys d := by
  by_contra hmem
  rw [(lookupKey_eq_none d u).2 hmem] at h
  exact Option.noConfusion h

theorem lookupKey_isSome_of_mem {d : Dataset} {u : String} (h : u ∈ keys d) :
    ∃ r, lookupKey d u = some r := by
  cases hl : lookupKey d u with
  | none => exact absurd ((lookupKey_eq_none d u).1 hl) (fun hn => hn h)
  | some r => exact ⟨r, rfl⟩

theorem keys_setKey (d : Dataset) (u : String) (r : EmpRec) : keys (setKey d u r) = keys d := by
  induction d with
  | nil => rfl
  | cons p rest ih =>
    obtain ⟨k, r0⟩ := p
    by_cases h : k = u
    · simp [setKey, h, keys]
    · simp only [setKey, if_neg h, keys_cons]
      rw [ih]

theorem lookupKey_setKey_self {d : Dataset} {u : String} {r0 : EmpRec} (r : EmpRec)
    (h : lookupKey d u = some r0) : lookupKey (setKey d u r) u = some r := by
  induction d with
  | nil => exact Option.noConfusion h
  | cons p rest ih =>
    obtain ⟨k, r1⟩ := p
    by_cases hk : k = u
    · simp [setKey, lookupKey, hk]
    · simp only [lookupKey, if_neg hk] at h
      simp [setKey, lookupKey, hk, ih h]

theorem lookupKey_setKey_ne (d : Dataset) (u v : String) (r : EmpRec) (h : v ≠ u) :
    lookupKey (setKey d u r) v = lookupKey d v := by
  induction d with
  | nil => rfl
  | cons p rest ih =>
    obtain ⟨k, r0⟩ := p
    by_cases hk : k = u
    · subst hk
      simp only [setKey, if_pos rfl, lookupKey, if_neg (fun hv : k = v => h hv.symm)]
    · simp [setKey, lookupKey, hk, ih]

theorem setKey_self {d : Dataset} {u : String} {r : EmpRec} (h : lookupKey d u = some r) :
    setKey d u r = d := by
  induction d with
  | nil => rfl
  | cons p rest ih =>
    obtain ⟨k, r0⟩ := p
    by_cases hk : k = u
    · simp only [lookupKey, if_pos hk] at h
      obtain rfl : r0 = r := Option.some.inj h
      simp [setKey, hk]
    · simp only [lookupKey, if_neg hk] at h
      simp [setKey, hk, ih h]

theorem lookupKey_append_left {d : Dataset} {v : String} {r : EmpRec}
    (l : Dataset) (h : lookupKey d v = some r) : lookupKey (d ++ l) v = some r := by
  induction d with
  | nil => exact Option.noConfusion h
  | cons p rest ih =>
    obtain ⟨k, r0⟩ := p
    by_cases hk : k = v
    · simp only [lookupKey, if_pos hk] at h
      simp [lookupKey, hk, h]
    · simp only [lookupKey, if_neg hk] at h
      simp [lookupKey, hk, ih h]

theorem lookupKey_append_right {d : Dataset} {v : String}
    (l : Dataset) (h : lookupKey d v = none) : lookupKey (d ++ l) v = lookupKey l v := by
  induction d with
  | nil => rfl
  | cons p rest ih =>
    obtain ⟨k, r0⟩ := p
    by_cases hk : k = v
    · simp [lookupKey, hk] at h
    · simp only [lookupKey, if_neg hk] at h
      simp [lookupKey, hk, ih h]

theorem keys_append (d l : Dataset) : keys (d ++ l) = keys d ++ keys l := by
  simp [keys]

/-! Growth of stored fields under one merge step. -/

theorem length_pos_of_ne_empty {s : String} (h : s ≠ "") : 0 < s.length := by
  cases s with
  | mk l =>
    cases l with
    | nil => exact absurd rfl h
    | cons c cs => simp [String.length]

theorem descGrows_refl (x : String) : descGrows x x := Or.inl rfl

theorem compGrows_refl (x : String) : compGrows x x := Or.inl rfl

theorem descGrows_trans {x y z : String} (h1 : descGrows x y) (h2 : descGrows y z) :
    descGrows x z := by
  rcases h2 with rfl | ⟨hz, hyz⟩
  · exact h1
  · rcases h1 with rfl | ⟨hy, hxy⟩
    · exact Or.inr ⟨hz, hyz⟩
    · exact Or.inr ⟨hz, Nat.lt_trans hxy hyz⟩

theorem compGrows_trans {x y z : String} (h1 : compGrows x y) (h2 : compGrows y z) :
    compGrows x z := by
  rcases h2 with rfl | ⟨hz, hy⟩
  · exact h1
  · rcases h1 with rfl | ⟨hy2, hx⟩
    · exact Or.inr ⟨hz, hy⟩
    · exact absurd hy hy2

theorem descDom_of_grows {x y e : String} (hd : descDom x e) (hg : descGrows x y) :
    descDom y e := by
  rcases hg with rfl | ⟨hy, hxy⟩
  · exact hd
  · rcases hd with he | ⟨hx, hle⟩
    · exact Or.inl he
    · exact Or.inr ⟨hy, Nat.le_of_lt (Nat.lt_of_le_of_lt hle hxy)⟩

theorem compDom_of_grows {x y e : String} (hd : compDom x e) (hg : compGrows x y) :
    compDom y e := by
  rcases hg with rfl | ⟨hy, hx⟩
  · exact hd
  · rcases hd with he | hx2
    · exact Or.inl he
    · exact Or.inr hy

theorem updateRecord_profile (existing e : EmpRec) :
    (updateRecord existing e).profile_URL = existing.profile_URL := rfl

theorem updateRecord_descGrows (existing e : EmpRec) :
    descGrows existing.description (updateRecord existing e).description := by
  unfold updateRecord
  by_cases hc : e.description ≠ "" ∧ (existing.description = "" ∨ existing.description.length < e.description.length)
  · simp only [if_pos hc]
    rcases hc.2 with hx | hlt
    · exact Or.inr ⟨hc.1, hx ▸ length_pos_of_ne_empty hc.1⟩
    · exact Or.inr ⟨hc.1, hlt⟩
  · simp only [if_neg hc]
    exact Or.inl rfl

theorem updateRecord_compGrows (existing e : EmpRec) :
    compGrows existing.company (updateRecord existing e).company := by
  unfold updateRecord
  by_cases hc : e.company ≠ "" ∧ existing.company = ""
  · simp only [if_pos hc]
    exact Or.inr ⟨hc.1, hc.2⟩
  · simp only [if_neg hc]
    exact Or.inl rfl

theorem updateRecord_descDom (existing e : EmpRec) :
    descDom (updateRecord existing e).description e.description := by
  unfold updateRecord
  by_cases hd : e.description = ""
  · exact Or.inl hd
  · by_cases hc : e.description ≠ "" ∧ (existing.description = "" ∨ existing.description.length < e.description.length)
    · simp only [if_pos hc]
      exact Or.inr ⟨hd, Nat.le_refl _⟩
    · simp only [if_neg hc]
      push_neg at hc
      obtain ⟨hx, hle⟩ := hc hd
      exact Or.inr ⟨hx, hle⟩

theorem updateRecord_compDom (existing e : EmpRec) :
    compDom (updateRecord existing e).company e.company := by
  unfold updateRecord
  by_cases hd : e.company = ""
  · exact Or.inl hd
  · by_cases hc : e.company ≠ "" ∧ existing.company = ""
    · simp only [if_pos hc]
      exact Or.inr hd
    · simp only [if_neg hc]
      push_neg at hc
      exact Or.inr (hc hd)

theorem descDom_self (e : String) : descDom e e := by
  by_cases h : e = ""
  · exact Or.inl h
  · exact Or.inr ⟨h, Nat.le_refl _⟩

theorem compDom_self (e : String) : compDom e e := by
  by_cases h : e = ""
  · exact Or.inl h
  · exact Or.inr h

/-! One merge step: key set, frame, growth, dominance. -/

theorem mergeStep_blank {e : EmpRec} (um : Bool) (d : Dataset)
    (h : pyStrip e.profile_URL = "") : mergeStep um d e = d := by
  simp [mergeStep, h]

theorem mergeStep_of_found_true {d : Dataset} {e : EmpRec} {ex : EmpRec}
    (ht : pyStrip e.profile_URL ≠ "") (hl : lookupKey d (pyStrip e.profile_URL) = some ex) :
    mergeStep true d e = setKey d (pyStrip e.profile_URL) (updateRecord ex e) := by
  simp [mergeStep, if_neg ht, hl]

theorem mergeStep_of_found_false {d : Dataset} {e : EmpRec} {ex : EmpRec}
    (_ht : pyStrip e.profile_URL ≠ "") (hl : lookupKey d (pyStrip e.profile_URL) = some ex) :
    mergeStep false d e = d := by
  simp [mergeStep, hl]

theorem mergeStep_of_new {d : Dataset} {e : EmpRec} (um : Bool)
    (ht : pyStrip e.profile_URL ≠ "") (hl : lookupKey d (pyStrip e.profile_URL) = none) :
    mergeStep um d e =
      d ++ [(pyStrip e.profile_URL, ⟨pyStrip e.profile_URL, e.description, e.company⟩)] := by
  simp [mergeStep, if_neg ht, hl]

theorem keys_mergeStep_mem (um : Bool) (d : Dataset) (e : EmpRec) (v : String) :
    v ∈ keys (mergeStep um d e) ↔
      v ∈ keys d ∨ (v = pyStrip e.profile_URL ∧ pyStrip e.profile_URL ≠ "") := by
  by_cases ht : pyStrip e.profile_URL = ""
  · rw [mergeStep_blank um d ht]
    simp [ht]
  · cases hl : lookupKey d (pyStrip e.profile_URL) with
    | some ex =>
      have hmem := mem_keys_of_lookupKey hl
      have hstep : keys (mergeStep um d e) = keys d := by
        cases um with
        | false => rw [mergeStep_of_found_false ht hl]
        | true => rw [mergeStep_of_found_true ht hl, keys_setKey]
      rw [hstep]
      constructor
      · exact Or.inl
      · rintro (h | ⟨rfl, _⟩)
        · exact h
        · exact hmem
    | none =>
      rw [mergeStep_of_new um ht hl, keys_append, List.mem_append]
      constructor
      · rintro (h | h)
        · exact Or.inl h
        · simp [keys] at h
          exact Or.inr ⟨h, ht⟩
      · rintro (h | ⟨rfl, _⟩)
        · exact Or.inl h
        · exact Or.inr (by simp [keys])

theorem lookupKey_mergeStep_false {d : Dataset} {v : String} {r : EmpRec} (e : EmpRec)
    (h : lookupKey d v = some r) : lookupKey (mergeStep false d e) v = some r := by
  by_cases ht : pyStrip e.profile_URL = ""
  · rw [mergeStep_blank false d ht]
    exact h
  · cases hl : lookupKey d (pyStrip e.profile_URL) with
    | some ex => rw [mergeStep_of_found_false ht hl]; exact h
    | none => rw [mergeStep_of_new false ht hl]; exact lookupKey_append_left _ h

theorem lookupKey_mergeStep_grows (d : Dataset) (e : EmpRec) {v : String} {r : EmpRec}
    (h : lookupKey d v = some r) :
    ∃ r', lookupKey (mergeStep true d e) v = some r' ∧ descGrows r.description r'.description ∧
      compGrows r.company r'.company ∧ r'.profile_URL = r.profile_URL := by
  by_cases ht : pyStrip e.profile_URL = ""
  · rw [mergeStep_blank true d ht]
    exact ⟨r, h, descGrows_refl _, compGrows_refl _, rfl⟩
  · cases hl : lookupKey d (pyStrip e.profile_URL) with
    | some ex =>
      rw [mergeStep_of_found_true ht hl]
      by_cases hv : pyStrip e.profile_URL = v
      · rw [hv] at hl
        obtain rfl : ex = r := Option.some.inj (hl.symm.trans h)
        rw [hv]
        exact ⟨updateRecord ex e, lookupKey_setKey_self _ h,
          updateRecord_descGrows ex e, updateRecord_compGrows ex e, rfl⟩
      · rw [lookupKey_setKey_ne d _ v _ (fun hvv => hv hvv.symm)]
        exact ⟨r, h, descGrows_refl _, compGrows_refl _, rfl⟩
    | none =>
      rw [mergeStep_of_new true ht hl]
      exact ⟨r, lookupKey_append_left _ h, descGrows_refl _, compGrows_refl _, rfl⟩

theorem mergeStep_dom (d : Dataset) (e : EmpRec) (ht : pyStrip e.profile_URL ≠ "") :
    ∃ r', lookupKey (mergeStep true d e) (pyStrip e.profile_URL) = some r' ∧
      descDom r'.description e.description ∧ compDom r'.company e.company := by
  cases hl : lookupKey d (pyStrip e.profile_URL) with
  | some ex =>
    rw [mergeStep_of_found_true ht hl]
    exact ⟨updateRecord ex e, lookupKey_setKey_self _ hl,
      updateRecord_descDom ex e, updateRecord_compDom ex e⟩
  | none =>
    rw [mergeStep_of_new true ht hl]
    refine ⟨⟨pyStrip e.profile_URL, e.description, e.company⟩, ?_, descDom_self _, compDom_self _⟩
    rw [lookupKey_append_right _ hl]
    simp [lookupKey]

theorem updateRecord_eq_self {existing e : EmpRec}
    (hd : descDom existing.description e.description)
    (hc : compDom existing.company e.company) : updateRecord existing e = existing := by
  unfold updateRecord
  have h1 : ¬(e.description ≠ "" ∧ (existing.description = "" ∨ existing.description.length < e.description.length)) := by
    rintro ⟨hne, hor⟩
    rcases hd with he | ⟨hx, hle⟩
    · exact hne he
    · rcases hor with hx2 | hlt
      · exact hx hx2
      · exact absurd hle (Nat.not_le_of_lt hlt)
  have h2 : ¬(e.company ≠ "" ∧ existing.company = "") := by
    rintro ⟨hne, hx⟩
    rcases hc with he | hx2
    · exact hne he
    · exact hx2 hx
  simp only [if_neg h1, if_neg h2]

theorem mergeStep_fixed {d : Dataset} {e : EmpRec}
    (h : pyStrip e.profile_URL ≠ "" →
      ∃ r, lookupKey d (pyStrip e.profile_URL) = some r ∧
        descDom r.description e.description ∧ compDom r.company e.company) :
    mergeStep true d e = d := by
  by_cases ht : pyStrip e.profile_URL = ""
  · exact mergeStep_blank true d ht
  · obtain ⟨r, hl, hd, hc⟩ := h ht
    rw [mergeStep_of_found_true ht hl, updateRecord_eq_self hd hc, setKey_self hl]

/-! The merge fold over a whole batch. -/

theorem mergeData_nil (um : Bool) (d : Dataset) : mergeData um d [] = d := rfl

theorem mergeData_cons (um : Bool) (d : Dataset) (e : EmpRec) (B : List EmpRec) :
    mergeData um d (e :: B) = mergeData um (mergeStep um d e) B := rfl

theorem lookupKey_mergeData_grows (B : List EmpRec) :
    ∀ (d : Dataset) (v : String) (r : EmpRec), lookupKey d v = some r →
      ∃ r', lookupKey (mergeData true d B) v = some r' ∧ descGrows r.description r'.description ∧
        compGrows r.company r'.company ∧ r'.profile_URL = r.profile_URL := by
  induction B with
  | nil => exact fun d v r h => ⟨r, h, descGrows_refl _, compGrows_refl _, rfl⟩
  | cons b bs ih =>
    intro d v r h
    obtain ⟨r1, h1, g1d, g1c, h1p⟩ := lookupKey_mergeStep_grows d b h
    obtain ⟨r2, h2, g2d, g2c, h2p⟩ := ih (mergeStep true d b) v r1 h1
    exact ⟨r2, mergeData_cons true d b bs ▸ h2, descGrows_trans g1d g2d,
      compGrows_trans g1c g2c, h2p.trans h1p⟩

theorem mergeData_dom (B : List EmpRec) :
    ∀ (d : Dataset) (e : EmpRec), e ∈ B → pyStrip e.profile_URL ≠ "" →
      ∃ r', lookupKey (mergeData true d B) (pyStrip e.profile_URL) = some r' ∧
        descDom r'.description e.description ∧ compDom r'.company e.company := by
  induction B with
  | nil => intro d e he; cases he
  | cons b bs ih =>
    intro d e he ht
    rw [mergeData_cons]
    rcases List.mem_cons.1 he with rfl | hbs
    · obtain ⟨r0, h0, d0, c0⟩ := mergeStep_dom d e ht
      obtain ⟨r', h', gd, gc, _⟩ := lookupKey_mergeData_grows bs _ _ _ h0
      exact ⟨r', h', descDom_of_grows d0 gd, compDom_of_grows c0 gc⟩
    · exact ih _ e hbs ht

theorem mergeData_fixed {B : List EmpRec} {M : Dataset}
    (h : ∀ e ∈ B, mergeStep true M e = M) : mergeData true M B = M := by
  induction B with
  | nil => rfl
  | cons b bs ih =>
    rw [mergeData_cons, h b (List.mem_cons_self b bs)]
    exact ih (fun e he => h e (List.mem_cons_of_mem b he))

theorem keys_mergeData_mem (um : Bool) (B : List EmpRec) :
    ∀ (d : Dataset) (v : String), v ∈ keys (mergeData um d B) ↔
      v ∈ keys d ∨ ∃ e, e ∈ B ∧ pyStrip e.profile_URL = v ∧ v ≠ "" := by
  induction B with
  | nil => simp [mergeData]
  | cons b bs ih =>
    intro d v
    rw [mergeData_cons, ih, keys_mergeStep_mem]
    constructor
    · rintro ((h | ⟨rfl, hne⟩) | ⟨e, he, hp, hv⟩)
      · exact Or.inl h
      · exact Or.inr ⟨b, List.mem_cons_self b bs, rfl, hne⟩
      · exact Or.inr ⟨e, List.mem_cons_of_mem b he, hp, hv⟩
    · rintro (h | ⟨e, he, hp, hv⟩)
      · exact Or.inl (Or.inl h)
      · rcases List.mem_cons.1 he with rfl | he2
        · refine Or.inl (Or.inr ⟨hp.symm, ?_⟩)
          rw [hp]
          exact hv
        · exact Or.inr ⟨e, he2, hp, hv⟩

theorem lookupKey_mergeData_false (B : List EmpRec) :
    ∀ (d : Dataset) (v : String), lookupKey (mergeData false d B) v =
      match lookupKey d v with
      | some r => some r
      | none => firstNewRec B v := by
  induction B with
  | nil =>
    intro d v
    cases hdv : lookupKey d v <;> simp [mergeData, hdv, firstNewRec]
  | cons b bs ih =>
    intro d v
    rw [mergeData_cons, ih]
    cases hdv : lookupKey d v with
    | some r =>
      rw [lookupKey_mergeStep_false b hdv]
    | none =>
      by_cases ht : pyStrip b.profile_URL = ""
      · rw [mergeStep_blank false d ht, hdv]
        have hcond : ¬(pyStrip b.profile_URL = v ∧ v ≠ "") := by
          rintro ⟨h1, h2⟩
          exact h2 (h1.symm.trans ht ▸ rfl)
        simp [firstNewRec, hcond]
      · cases hl : lookupKey d (pyStrip b.profile_URL) with
        | some ex =>
          rw [mergeStep_of_found_false ht hl, hdv]
          have hcond : ¬(pyStrip b.profile_URL = v ∧ v ≠ "") := by
            rintro ⟨h1, _⟩
            rw [h1, hdv] at hl
            exact Option.noConfusion hl
          simp [firstNewRec, hcond]
        | none =>
          rw [mergeStep_of_new false ht hl]
          by_cases hv : pyStrip b.profile_URL = v
          · have hvne : v ≠ "" := hv ▸ ht
            rw [lookupKey_append_right _ hdv]
            simp [lookupKey, firstNewRec, hv, hvne]
          · rw [lookupKey_append_right _ hdv]
            have hlook : lookupKey [(pyStrip b.profile_URL,
                (⟨pyStrip b.profile_URL, b.description, b.company⟩ : EmpRec))] v = none := by
              simp [lookupKey, hv]
            rw [hlook]
            simp only [firstNewRec]
            rw [if_neg (fun h : pyStrip b.profile_URL = v ∧ ¬v = "" => hv h.1)]

/-! Enumerator lemmas: deduplication and the stable sort by page number. -/

theorem mem_dedupFirstAux (l : List String) :
    ∀ (seen : List String) (x : String), x ∈ dedupFirstAux seen l ↔ x ∈ l ∧ x ∉ seen := by
  induction l with
  | nil => simp [dedupFirstAux]
  | cons y ys ih =>
    intro seen x
    by_cases hy : y ∈ seen
    · rw [dedupFirstAux, if_pos hy, ih]
      constructor
      · rintro ⟨hx, hs⟩
        exact ⟨List.mem_cons_of_mem y hx, hs⟩
      · rintro ⟨hx, hs⟩
        rcases List.mem_cons.1 hx with rfl | hx2
        · exact absurd hy hs
        · exact ⟨hx2, hs⟩
    · rw [dedupFirstAux, if_neg hy]
      rw [List.mem_cons, ih]
      constructor
      · rintro (rfl | ⟨hx, hs⟩)
        · exact ⟨List.mem_cons_self _ _, hy⟩
        · refine ⟨List.mem_cons_of_mem y hx, fun hx2 => hs (List.mem_cons_of_mem y hx2)⟩
      · rintro ⟨hx, hs⟩
        rcases List.mem_cons.1 hx with rfl | hx2
        · exact Or.inl rfl
        · by_cases hxy : x = y
          · exact Or.inl hxy
          · refine Or.inr ⟨hx2, fun hx3 => ?_⟩
            rcases List.mem_cons.1 hx3 with h4 | h4
            · exact hxy h4
            · exact hs h4

theorem nodup_dedupFirstAux (l : List String) : ∀ seen : List String, (dedupFirstAux seen l).Nodup := by
  induction l with
  | nil => intro seen; simp [dedupFirstAux]
  | cons y ys ih =>
    intro seen
    by_cases hy : y ∈ seen
    · rw [dedupFirstAux, if_pos hy]
      exact ih seen
    · rw [dedupFirstAux, if_neg hy]
      refine List.nodup_cons.2 ⟨fun hmem => ?_, ih (y :: seen)⟩
      exact ((mem_dedupFirstAux ys (y :: seen) y).1 hmem).2 (List.mem_cons_self y seen)

theorem mem_dedupFirst (l : List String) (x : String) : x ∈ dedupFirst l ↔ x ∈ l := by
  rw [dedupFirst, mem_dedupFirstAux]
  simp

theorem nodup_dedupFirst (l : List String) : (dedupFirst l).Nodup := nodup_dedupFirstAux l []

theorem insertByKey_perm (x : String) (l : List String) : List.Perm (insertByKey x l) (x :: l) := by
  induction l with
  | nil => exact List.Perm.refl _
  | cons y ys ih =>
    rw [insertByKey]
    by_cases h : get_page_num x < get_page_num y
    · rw [if_pos h]
    · rw [if_neg h]
      exact (List.Perm.cons y ih).trans (List.Perm.swap x y ys)

theorem mem_insertByKey (x z : String) (l : List String) :
    z ∈ insertByKey x l ↔ z = x ∨ z ∈ l := by
  rw [(insertByKey_perm x l).mem_iff, List.mem_cons]

theorem pairwise_insertByKey (x : String) (l : List String)
    (h : l.Pairwise (fun a b => get_page_num a ≤ get_page_num b)) :
    (insertByKey x l).Pairwise (fun a b => get_page_num a ≤ get_page_num b) := by
  induction l with
  | nil => simp [insertByKey]
  | cons y ys ih =>
    obtain ⟨hy, hys⟩ := List.pairwise_cons.1 h
    rw [insertByKey]
    by_cases hxy : get_page_num x < get_page_num y
    · rw [if_pos hxy]
      refine List.pairwise_cons.2 ⟨?_, h⟩
      intro z hz
      rcases List.mem_cons.1 hz with rfl | hz2
      · exact Nat.le_of_lt hxy
      · exact Nat.le_trans (Nat.le_of_lt hxy) (hy z hz2)
    · rw [if_neg hxy]
      refine List.pairwise_cons.2 ⟨?_, ih hys⟩
      intro z hz
      rcases (mem_insertByKey x z ys).1 hz with rfl | hz2
      · exact Nat.le_of_not_lt hxy
      · exact hy z hz2

theorem sortByPageNum_foldl_perm (l : List String) :
    ∀ acc : List String, List.Perm (l.foldl (fun a x => insertByKey x a) acc) (acc ++ l) := by
  induction l with
  | nil => intro acc; simp
  | cons x xs ih =>
    intro acc
    rw [List.foldl_cons]
    refine (ih (insertByKey x acc)).trans ?_
    refine (((insertByKey_perm x acc).append_right xs).trans ?_)
    exact List.perm_middle.symm

theorem sortByPageNum_perm (l : List String) : List.Perm (sortByPageNum l) l := by
  have h := sortByPageNum_foldl_perm l []
  simpa [sortByPageNum] using h

theorem sortByPageNum_pairwise (l : List String) :
    (sortByPageNum l).Pairwise (fun a b => get_page_num a ≤ get_page_num b) := by
  have haux : ∀ (m : List String) (acc : List String),
      acc.Pairwise (fun a b => get_page_num a ≤ get_page_num b) →
      (m.foldl (fun acc x => insertByKey x acc) acc).Pairwise
        (fun a b => get_page_num a ≤ get_page_num b) := by
    intro m
    induction m with
    | nil => intro acc h; exact h
    | cons x xs ih =>
      intro acc h
      rw [List.foldl_cons]
      exact ih _ (pairwise_insertByKey x acc h)
  exact haux l [] (List.Pairwise.nil)

/-! Persistence lemmas: sorting by key and the write/load round trip. -/

theorem insertSorted_perm (p : String × EmpRec) (l : Dataset) :
    List.Perm (insertSorted p l) (p :: l) := by
  induction l with
  | nil => exact List.Perm.refl _
  | cons q qs ih =>
    rw [insertSorted]
    by_cases h : p.1 < q.1
    · rw [if_pos h]
    · rw [if_neg h]
      exact (List.Perm.cons q ih).trans (List.Perm.swap p q qs)

theorem sortByKey_perm (d : Dataset) : List.Perm (sortByKey d) d := by
  induction d with
  | nil => exact List.Perm.refl _
  | cons p rest ih =>
    have : sortByKey (p :: rest) = insertSorted p (sortByKey rest) := rfl
    rw [this]
    exact (insertSorted_perm p (sortByKey rest)).trans (List.Perm.cons p ih)

theorem keys_sortByKey_perm (d : Dataset) : List.Perm (keys (sortByKey d)) (keys d) := by
  exact (sortByKey_perm d).map (fun p : String × EmpRec => p.1)

theorem lookupKey_insertSorted (p : String × EmpRec) (l : Dataset) (v : String)
    (hp : p.1 ∉ keys l) :
    lookupKey (insertSorted p l) v = if p.1 = v then some p.2 else lookupKey l v := by
  induction l with
  | nil =>
    obtain ⟨k, r⟩ := p
    simp [insertSorted, lookupKey]
  | cons q qs ih =>
    have hcons : keys (q :: qs) = q.1 :: keys qs := rfl
    rw [hcons] at hp
    have hp1 : p.1 ≠ q.1 := fun h => hp (h ▸ List.mem_cons_self _ _)
    have hp2 : p.1 ∉ keys qs := fun h => hp (List.mem_cons_of_mem _ h)
    rw [insertSorted]
    by_cases hlt : p.1 < q.1
    · rw [if_pos hlt]
      obtain ⟨pk, pr⟩ := p
      rfl
    · rw [if_neg hlt]
      rw [lookupKey_cons q (insertSorted p qs) v, ih hp2, lookupKey_cons q qs v]
      by_cases hqv : q.1 = v
      · by_cases hpv : p.1 = v
        · exact absurd (hpv.trans hqv.symm) hp1
        · rw [if_pos hqv, if_neg hpv, if_pos hqv]
      · by_cases hpv : p.1 = v
        · rw [if_neg hqv, if_pos hpv, if_pos hpv]
        · rw [if_neg hqv, if_neg hpv, if_neg hpv, if_neg hqv]

theorem lookupKey_sortByKey (d : Dataset) (hnd : (keys d).Nodup) (v : String) :
    lookupKey (sortByKey d) v = lookupKey d v := by
  induction d with
  | nil => rfl
  | cons p rest ih =>
    obtain ⟨hk, hnd2⟩ := List.nodup_cons.1 hnd
    have hsort : sortByKey (p :: rest) = insertSorted p (sortByKey rest) := rfl
    have hmem : p.1 ∉ keys (sortByKey rest) :=
      fun h => hk ((keys_sortByKey_perm rest).mem_iff.1 h)
    rw [hsort, lookupKey_insertSorted p (sortByKey rest) v hmem, ih hnd2]
    obtain ⟨k, r⟩ := p
    rfl

theorem getField_profile (a b c : String) : getField csvHeader [a, b, c] "Profile_URL" = a := rfl

theorem getField_desc (a b c : String) : getField csvHeader [a, b, c] "Description" = b := rfl

theorem getField_comp (a b c : String) : getField csvHeader [a, b, c] "Company" = c := rfl

theorem load_writeRows_aux (E : Dataset) :
    ∀ acc : Dataset, (∀ p ∈ E, WellFormedEntry p) → (keys E).Nodup →
      (∀ v ∈ keys E, v ∉ keys acc) →
      (E.map (fun p => [p.2.profile_URL, p.2.description, p.2.company])).foldl
        (loadRow csvHeader) acc = acc ++ E := by
  induction E with
  | nil => intro acc _ _ _; simp
  | cons p rest ih =>
    intro acc hwf hnd hdisj
    obtain ⟨u, r⟩ := p
    obtain ⟨hu, hsu, hpu, hsd, hsc⟩ := hwf (u, r) (List.mem_cons_self _ _)
    simp only at hu hsu hpu hsd hsc
    have hrow : loadRow csvHeader acc [r.profile_URL, r.description, r.company] =
        acc ++ [(u, r)] := by
      have hurl : pyStrip (getField csvHeader [r.profile_URL, r.description, r.company]
          "Profile_URL") = u := by
        rw [getField_profile, hpu, hsu]
      have hacc : lookupKey acc u = none :=
        (lookupKey_eq_none acc u).2 (hdisj u (List.mem_cons_self _ _))
      have hrec : (⟨u, pyStrip r.description, pyStrip r.company⟩ : EmpRec) = r := by
        rw [hsd, hsc, ← hpu]
      rw [loadRow]
      simp only [hurl, getField_desc, getField_comp, if_neg hu, setOrAppend, hacc, hrec]
    rw [List.map_cons, List.foldl_cons, hrow]
    have hnd2 : (keys rest).Nodup := (List.nodup_cons.1 hnd).2
    have hwf2 : ∀ q ∈ rest, WellFormedEntry q := fun q hq => hwf q (List.mem_cons_of_mem _ hq)
    have hdisj2 : ∀ v ∈ keys rest, v ∉ keys (acc ++ [(u, r)]) := by
      intro v hv
      rw [keys_append, List.mem_append]
      rintro (h | h)
      · exact hdisj v (List.mem_cons_of_mem _ hv) h
      · simp only [keys, List.map_cons, List.map_nil, List.mem_singleton] at h
        exact (List.nodup_cons.1 hnd).1 (h ▸ hv)
    rw [ih (acc ++ [(u, r)]) hwf2 hnd2 hdisj2, List.append_assoc]
    rfl

theorem load_writeRows (D : Dataset) (hwf : ∀ p ∈ D, WellFormedEntry p)
    (hnd : (keys D).Nodup) :
    load_existing_data (some (writeRows D)) = sortByKey D := by
  have hload : load_existing_data (some (writeRows D)) =
      ((sortByKey D).map (fun p => [p.2.profile_URL, p.2.description, p.2.company])).foldl
        (loadRow csvHeader) [] := rfl
  rw [hload]
  have hwf2 : ∀ p ∈ sortByKey D, WellFormedEntry p :=
    fun p hp => hwf p ((sortByKey_perm D).mem_iff.1 hp)
  have hnd2 : (keys (sortByKey D)).Nodup := ((keys_sortByKey_perm D).nodup_iff).2 hnd
  have hdisj : ∀ v ∈ keys (sortByKey D), v ∉ keys ([] : Dataset) := by
    intro v _ h
    simp [keys] at h
  rw [load_writeRows_aux (sortByKey D) [] hwf2 hnd2 hdisj]
  rfl

/-! Attribution lemmas: the scan loop as a first-match search. -/

theorem assign_eq_specAssign (d : String) (cs : List String) :
    assign_company_from_description d cs = specAssign d cs := by
  by_cases hd : d = ""
  · simp [assign_company_from_description, specAssign, hd]
  · simp only [assign_company_from_description, specAssign, if_neg hd]
    induction cs with
    | nil => rfl
    | cons c rest ih =>
      by_cases h1 : containsSub (lowerChars c) (lowerChars d) = true
      · have hm : specMatches d c = true := by simp [specMatches, h1]
        rw [List.find?_cons_of_pos _ hm]
        simp [assignLoop, h1]
      · by_cases h2 : containsSub (cleanCompany (lowerChars c)) (lowerChars d) = true
        · have hm : specMatches d c = true := by simp [specMatches, h2]
          rw [List.find?_cons_of_pos _ hm]
          simp [assignLoop, h1, h2]
        · have hm : ¬specMatches d c = true := by simp [specMatches, h1, h2]
          rw [List.find?_cons_of_neg _ hm]
          rw [assignLoop]
          simp only [h1, h2, if_false, Bool.false_eq_true]
          exact ih

theorem specAssign_mem (d : String) (cs : List String) (h : specAssign d cs ≠ "") :
    specAssign d cs ∈ cs := by
  unfold specAssign at h ⊢
  by_cases hd : d = ""
  · rw [if_pos hd] at h
    exact absurd rfl h
  · rw [if_neg hd] at h ⊢
    cases hf : cs.find? (specMatches d) with
    | none =>
      rw [hf] at h
      exact absurd rfl h
    | some c =>
      simp only [Option.getD_some]
      exact List.mem_of_find?_eq_some hf

/-! Claim theorems. -/

/-- C1 counterexample: in update mode, a batch record whose url is absent
from the dataset is not ignored — merging it into the empty dataset inserts
it, so the key set of the result differs from the key set of the dataset. -/
theorem C1_counterexample :
    mergeData true [] [⟨"u", "d", "c"⟩] = [("u", ⟨"u", "d", "c"⟩)] ∧
    keys (mergeData true [] [⟨"u", "d", "c"⟩]) ≠ keys ([] : Dataset) := by
  constructor
  · rfl
  · decide

/-- C1 (amended): merging a batch never removes a key, and in either mode —
update mode included — adds exactly the non-blank stripped urls of the batch
records: a key is in the result iff it was in the dataset or some batch
record carries it. -/
theorem C1_merge_key_set (um : Bool) (d : Dataset) (B : List EmpRec) (u : String) :
    u ∈ keys (mergeData um d B) ↔
      u ∈ keys d ∨ ∃ e, e ∈ B ∧ pyStrip e.profile_URL = u ∧ u ≠ "" :=
  keys_mergeData_mem um B d u

/-- C2: fresh-mode merge leaves every key already present in the dataset
bound to its exact original record (descriptions and companies untouched),
and binds a key absent from the dataset to the first batch record carrying
that url, inserted as-is — or to nothing when no batch record carries it. -/
theorem C2_fresh_mode_frame (d : Dataset) (B : List EmpRec) (u : String) :
    lookupKey (mergeData false d B) u =
      match lookupKey d u with
      | some r => some r
      | none => firstNewRec B u :=
  lookupKey_mergeData_false B d u

/-- C3: for a key already present in the dataset, update-mode merge never
shortens the description; the description changes only to a non-empty value
that is strictly longer than (or replaces an empty) original, and the
company changes only to a non-empty value written over an empty original. -/
theorem C3_update_field_rules (d : Dataset) (B : List EmpRec) (u : String) (r r' : EmpRec)
    (h : lookupKey d u = some r) (h' : lookupKey (mergeData true d B) u = some r') :
    r.description.length ≤ r'.description.length ∧
    (r'.description ≠ r.description →
      r'.description ≠ "" ∧ (r.description = "" ∨ r.description.length < r'.description.length)) ∧
    (r'.company ≠ r.company → r'.company ≠ "" ∧ r.company = "") := by
  obtain ⟨r2, h2, gd, gc, _⟩ := lookupKey_mergeData_grows B d u r h
  obtain rfl : r2 = r' := Option.some.inj (h2.symm.trans h')
  refine ⟨?_, ?_, ?_⟩
  · rcases gd with he | ⟨_, hlt⟩
    · rw [he]
    · exact Nat.le_of_lt hlt
  · intro hne
    rcases gd with he | ⟨hne2, hlt⟩
    · exact absurd he hne
    · exact ⟨hne2, Or.inr hlt⟩
  · intro hne
    rcases gc with he | ⟨hne2, hx⟩
    · exact absurd he hne
    · exact ⟨hne2, hx⟩

/-- C3 witness: a concrete update-mode merge replacing a short description,
showing the resulting description is at least as long as the original. -/
theorem C3_witness :
    (⟨"u", "a", ""⟩ : EmpRec).description.length ≤
      (⟨"u", "abc", "C"⟩ : EmpRec).description.length :=
  (C3_update_field_rules [("u", ⟨"u", "a", ""⟩)] [⟨"u", "abc", "C"⟩] "u"
    ⟨"u", "a", ""⟩ ⟨"u", "abc", "C"⟩ (by decide) (by decide)).1

/-- C4: update-mode merge is idempotent — re-merging the same batch into an
already-merged dataset changes nothing. -/
theorem C4_update_merge_idempotent (d : Dataset) (B : List EmpRec) :
    mergeData true (mergeData true d B) B = mergeData true d B := by
  apply mergeData_fixed
  intro e he
  by_cases ht : pyStrip e.profile_URL = ""
  · exact mergeStep_blank true _ ht
  · exact mergeStep_fixed (fun ht2 => mergeData_dom B d e he ht2)

/-- C5 counterexample: an address with no extractable page number does not
sort last — it is keyed 999 and an address with extracted page number 1000
sorts after it. -/
theorem C5_counterexample :
    enumerate_pages "x" (some [some ⟨"a/search/results/people/?page=1000", ""⟩,
        some ⟨"b/search/results/people/", ""⟩]) =
      ["b/search/results/people/", "a/search/results/people/?page=1000"] ∧
    findPageNum ("b/search/results/people/").data = none ∧
    findPageNum ("a/search/results/people/?page=1000").data = some 1000 := by
  refine ⟨by decide, by decide, by decide⟩

/-- C5 (amended): the page enumerator returns a duplicate-free sequence,
sorted ascending by the page number extracted from each address with 999
substituted when none is extractable (so an unparseable address sorts after
every address with page number below 999, though not necessarily last), and
containing exactly the addresses collected from the controls; as a pure
function of the controls it is deterministic. -/
theorem C5_enumerator_sorted (u : String) (cs : List (Option PaginationControl)) :
    (enumerate_pages u (some cs)).Nodup ∧
    (enumerate_pages u (some cs)).Pairwise (fun a b => get_page_num a ≤ get_page_num b) ∧
    (∀ x, x ∈ enumerate_pages u (some cs) ↔ x ∈ collectUrls (baseOf u) cs) := by
  refine ⟨?_, ?_, ?_⟩
  · exact ((sortByPageNum_perm (dedupFirst (collectUrls (baseOf u) cs))).nodup_iff).2
      (nodup_dedupFirst _)
  · exact sortByPageNum_pairwise _
  · intro x
    rw [show enumerate_pages u (some cs) =
        sortByPageNum (dedupFirst (collectUrls (baseOf u) cs)) from rfl,
      (sortByPageNum_perm _).mem_iff, mem_dedupFirst]

/-- C6 counterexample: when the pagination element is present but the
collection of controls is empty, the enumerator returns the empty sequence,
not the single-element sequence with the current address. -/
theorem C6_counterexample :
    enumerate_pages "u" (some []) = [] ∧ enumerate_pages "u" (some []) ≠ ["u"] := by
  refine ⟨rfl, by decide⟩

/-- C6 (amended): when the pagination element is absent the enumerator
returns exactly the single-element sequence with the current address; when
the element is present but no control contributes an address, the result is
the empty sequence. -/
theorem C6_no_pagination (u : String) (cs : List (Option PaginationControl)) :
    enumerate_pages u none = [u] ∧
    (collectUrls (baseOf u) cs = [] → enumerate_pages u (some cs) = []) := by
  constructor
  · rfl
  · intro h
    show sortByPageNum (dedupFirst (collectUrls (baseOf u) cs)) = []
    rw [h]
    rfl

/-- C6 witness: the two enumerator behaviours at concrete inputs — absent
pagination element, and a pagination element with one control-less entry. -/
theorem C6_witness :
    enumerate_pages "u" none = ["u"] ∧ enumerate_pages "u" (some [none]) = [] :=
  ⟨(C6_no_pagination "u" [none]).1, (C6_no_pagination "u" [none]).2 (by decide)⟩

/-- C7 counterexample: the code removes "." from a company name instead of
normalizing it to a space, so "Acme.Corp" is matched inside "acmecorp" —
while the claim's punctuation-to-spaces rule matches nothing there and would
return the empty string. -/
theorem C7_counterexample :
    assign_company_from_description "acmecorp" ["Acme.Corp"] = "Acme.Corp" ∧
    claimMatches "acmecorp" "Acme.Corp" = false ∧
    claimAssign "acmecorp" ["Acme.Corp"] = "" := by
  refine ⟨by decide, by decide, by decide⟩

/-- C7 (amended): the attribution function returns the first company in
list order whose lowered name, or its cleaned form with "." removed and "-"
and "_" replaced by spaces, is a substring of the lowered description, and
the empty string when the description is empty or no company matches; a
non-empty result is always one of the given companies. -/
theorem C7_attribution (d : String) (cs : List String) :
    assign_company_from_description d cs = specAssign d cs ∧
    (assign_company_from_description d cs ≠ "" → assign_company_from_description d cs ∈ cs) := by
  refine ⟨assign_eq_specAssign d cs, fun h => ?_⟩
  rw [assign_eq_specAssign d cs] at h ⊢
  exact specAssign_mem d cs h

/-- C7 witness: the spec's own example — attribution finds "Acme Corp" in
"Senior Eng @ Acme Corp." and the result is one of the candidates. -/
theorem C7_witness :
    assign_company_from_description "Senior Eng @ Acme Corp." ["Acme Corp", "Other Inc"] =
      specAssign "Senior Eng @ Acme Corp." ["Acme Corp", "Other Inc"] ∧
    assign_company_from_description "Senior Eng @ Acme Corp." ["Acme Corp", "Other Inc"] ∈
      ["Acme Corp", "Other Inc"] :=
  ⟨(C7_attribution "Senior Eng @ Acme Corp." ["Acme Corp", "Other Inc"]).1,
    (C7_attribution "Senior Eng @ Acme Corp." ["Acme Corp", "Other Inc"]).2 (by decide)⟩

/-- C8 counterexample: the loader strips field values, so a dataset whose
description carries leading whitespace does not survive the write/load round
trip unchanged. -/
theorem C8_counterexample :
    load_existing_data (some (writeRows [("u", ⟨"u", " x", ""⟩)])) = [("u", ⟨"u", "x", ""⟩)] ∧
    load_existing_data (some (writeRows [("u", ⟨"u", " x", ""⟩)])) ≠ [("u", ⟨"u", " x", ""⟩)] := by
  refine ⟨by decide, by decide⟩

/-- C8 (amended): for a dataset whose entries are well-formed — non-blank
stripped keys equal to each record's url, strip-invariant field values,
duplicate-free keys — writing to the persisted store and reloading
reproduces the same mapping: identical lookups at every key, identical key
sets. -/
theorem C8_roundtrip (D : Dataset) (hwf : ∀ p ∈ D, WellFormedEntry p)
    (hnd : (keys D).Nodup) :
    (∀ v, lookupKey (load_existing_data (some (writeRows D))) v = lookupKey D v) ∧
    (∀ v, v ∈ keys (load_existing_data (some (writeRows D))) ↔ v ∈ keys D) := by
  rw [load_writeRows D hwf hnd]
  constructor
  · exact fun v => lookupKey_sortByKey D hnd v
  · exact fun v => (keys_sortByKey_perm D).mem_iff

/-- C8 witness: a concrete well-formed dataset reloads to the same binding
at its key. -/
theorem C8_witness :
    lookupKey (load_existing_data (some (writeRows [("u", ⟨"u", "d", "c"⟩)]))) "u" =
      lookupKey [("u", ⟨"u", "d", "c"⟩)] "u" :=
  (C8_roundtrip [("u", ⟨"u", "d", "c"⟩)]
    (by
      intro p hp
      rw [List.mem_singleton] at hp
      subst hp
      exact ⟨by decide, by decide, rfl, by decide, by decide⟩)
    (by decide)).1 "u"

/-- C9: when the CSV write fails on a non-empty batch, save_employee_data
still returns normally (no exception escapes), the persisted file is left
exactly as it was, the merged in-memory dataset it computed is the pure
merge of the batch into the existing data, and the failure is logged. -/
theorem C9_write_failure (employees : List EmpRec) (um : Bool) (aed : Option Dataset)
    (file : Option (List (List String))) (h : employees ≠ []) :
    save_employee_data false employees um aed file =
      .ok ⟨file, some (mergeData um (pickExisting aed file) employees), true⟩ := by
  unfold save_employee_data
  rw [if_neg h]
  rfl

/-- C9 witness: a concrete failed flush — file untouched, merged data
retained, error flagged, normal return. -/
theorem C9_witness :
    save_employee_data false [⟨"u", "d", "c"⟩] true (some []) none =
      .ok ⟨none, some [("u", ⟨"u", "d", "c"⟩)], true⟩ :=
  (C9_write_failure [⟨"u", "d", "c"⟩] true (some []) none (by decide)).trans (by rfl)

/-- C10: merging an empty batch returns immediately with the persisted file
completely untouched (no rewrite, no header, regardless of write-ability and
mode), and a batch record whose profile url strips to the empty string is
skipped without affecting the dataset. -/
theorem C10_empty_batch :
    (∀ (writeOk um : Bool) (aed : Option Dataset) (file : Option (List (List String))),
      save_employee_data writeOk [] um aed file = .ok ⟨file, none, false⟩) ∧
    (∀ (um : Bool) (d : Dataset) (e : EmpRec),
      pyStrip e.profile_URL = "" → mergeStep um d e = d) := by
  constructor
  · intro writeOk um aed file
    rfl
  · exact fun um d e h => mergeStep_blank um d h

/-- C10 witness: the empty batch leaves a (here absent) file untouched, and
a whitespace-only url record leaves the dataset unchanged. -/
theorem C10_witness :
    save_employee_data true [] true none none = .ok ⟨none, none, false⟩ ∧
    mergeStep true [] ⟨" ", "d", "c"⟩ = [] :=
  ⟨C10_empty_batch.1 true true none none,
    C10_empty_batch.2 true [] ⟨" ", "d", "c"⟩ (by decide)⟩

end LinkedinExtractor
